import Mathlib

/-!
Shallow embedding of the contract-generation core of the repository
`smart_contract_agent`, together with proofs about its placeholder
substitution engine.

Texts are modelled as lists of characters (`Str`).  The embedding follows
`src/generators/contract_generator.py` (`_replace_placeholders` and its
helper `replace_in_text`), `src/validators/models.py` (`ContractData`) and
`src/agents/extraction_agent.py` (`ContractExtractionAgent.extract`).
-/

abbrev Str := List Char

/-- Values that can appear in the Record's `model_dump()` dictionary:
strings, lists of strings, dates and integers. -/
inductive PyValue where
  | vstr (s : Str)
  | vlist (xs : List Str)
  | vdate (y m d : Nat)
  | vint (n : Int)
deriving DecidableEq

/-- Python `", ".join(value)` for a list of strings. -/
def joinCommaSpace (xs : List Str) : Str := List.intercalate (", ".data) xs

/-- Abbreviated month name as produced by `strftime("%b")` in the C locale. -/
def monthAbbrev : Nat → Str
  | 1 => "Jan".data
  | 2 => "Feb".data
  | 3 => "Mar".data
  | 4 => "Apr".data
  | 5 => "May".data
  | 6 => "Jun".data
  | 7 => "Jul".data
  | 8 => "Aug".data
  | 9 => "Sep".data
  | 10 => "Oct".data
  | 11 => "Nov".data
  | 12 => "Dec".data
  | _ => []

def natStr (n : Nat) : Str := (Nat.repr n).data

/-- `strftime("%d")`: day of month, zero padded to two digits. -/
def pad2 (n : Nat) : Str := if n < 10 then '0' :: natStr n else natStr n

/-- `value.strftime("%d %b, %Y")` from `replace_in_text`. -/
def pyDateFormat (y m d : Nat) : Str :=
  pad2 d ++ ' ' :: (monthAbbrev m ++ ',' :: ' ' :: natStr y)

/-- The string a value is rendered to inside `replace_in_text`: lists are
joined with `", "`, dates are formatted `%d %b, %Y`, everything else goes
through `str(...)`. -/
def pyStr : PyValue → Str
  | .vstr s => s
  | .vlist xs => joinCommaSpace xs
  | .vdate y m d => pyDateFormat y m d
  | .vint n => (toString n).data

def isBraceChar (c : Char) : Bool := c == '{' || c == '}'

/-- Python `str.strip("\x7b\x7d")`: remove leading and trailing brace
characters (in any order, any number) from both ends. -/
def stripBraces (s : Str) : Str :=
  ((s.dropWhile isBraceChar).reverse.dropWhile isBraceChar).reverse

/-- The single-brace placeholder text built by `f"\x7b\x7b\x7b0\x7d\x7d\x7d".format(key)`
style f-strings in the source: an opening brace, the key, a closing brace. -/
def braced (s : Str) : Str := '{' :: (s ++ ['}'])

/-- The double-brace placeholder spelling: braces around the single-brace one. -/
def doubleBraced (s : Str) : Str := braced (braced s)

/-- Python `text.replace(p, v)` with fuel (the fuel is always at least the
length of the text at every call site, so it never runs out for a nonempty
pattern): scan left to right, replace each nonoverlapping occurrence of `p`
by `v`, and continue after the inserted replacement. -/
def replaceAllF (p v : Str) : Nat → Str → Str
  | _, [] => []
  | 0, t => t
  | fuel+1, c :: t =>
    if p.isPrefixOf (c :: t) then v ++ replaceAllF p v fuel (t.drop (p.length - 1))
    else c :: replaceAllF p v fuel t

/-- Python `text.replace(p, v)`. -/
def replaceAll (p v t : Str) : Str := replaceAllF p v t.length t

/-- One iteration of the placeholder loop of `replace_in_text`: if the
placeholder occurs in the text, replace it by the stripped value string and
then replace a brace-wrapped copy of the value string by the bare value. -/
def applyPlaceholder (vs text ph : Str) : Str :=
  if ph <:+: text then replaceAll (braced vs) vs (replaceAll ph vs text) else text

/-- The `placeholders` list of `replace_in_text`.  The source lists six
entries; despite the comments there about spaces they are just the
single-brace and double-brace spellings, in this order. -/
def placeholderList (key : Str) : List Str :=
  [braced key, doubleBraced key, braced key, doubleBraced key, doubleBraced key, braced key]

/-- `replace_in_text(text, key, value)` from the generator. -/
def replace_in_text (text key : Str) (value : PyValue) : Str :=
  (placeholderList key).foldl (applyPlaceholder (stripBraces (pyStr value))) text

/-- A calendar date as validated by the Record model. -/
structure PyDate where
  year : Nat
  month : Nat
  day : Nat
deriving DecidableEq

/-- `ContractData` from `src/validators/models.py`. -/
structure ContractData where
  client_name : Str
  effective_date : PyDate
  machine_names : List Str
  subscription_duration_months : Int
  purchase_order : Str
  address : Str
deriving DecidableEq

/-- `data.model_dump()` as an association list, in field declaration order. -/
def dataDict (r : ContractData) : List (Str × PyValue) :=
  [("client_name".data, .vstr r.client_name),
   ("effective_date".data,
     .vdate r.effective_date.year r.effective_date.month r.effective_date.day),
   ("machine_names".data, .vlist r.machine_names),
   ("subscription_duration_months".data, .vint r.subscription_duration_months),
   ("purchase_order".data, .vstr r.purchase_order),
   ("address".data, .vstr r.address)]

/-- `for key, value in data_dict.items(): text = replace_in_text(text, key, value)`. -/
def applyAll (dict : List (Str × PyValue)) (text : Str) : Str :=
  dict.foldl (fun t kv => replace_in_text t kv.1 kv.2) text

/-- A table cell is a list of paragraph texts; a row is a list of cells; a
table is a list of rows. -/
abbrev Cell := List Str
abbrev Row := List Cell
abbrev Table := List Row

/-- A document: top-level paragraphs and tables (python-docx `Document`). -/
structure Docx where
  paragraphs : List Str
  tables : List Table
deriving DecidableEq

def lowerStr (s : Str) : Str := s.map Char.toLower

/-- `any("machine" in p.text.lower() for p in cell.paragraphs)`. -/
def cellHasMachine (cell : Cell) : Bool :=
  cell.any fun p => decide ("machine".data <:+: lowerStr p)

/-- The machine-table classification loop of `_replace_placeholders`. -/
def isMachineTable (t : Table) : Bool :=
  t.any fun row => row.any cellHasMachine

def machineNameKey : Str := "machine_name".data

/-- Content of one cell of a generated machine row.  The source iterates the
template cell's paragraphs and assigns `new_cell.text = text` for each, so
only the processed text of the LAST template paragraph survives, as a single
paragraph; a template cell with no paragraphs leaves the freshly added cell
with its single empty paragraph. -/
def machineCell (dict : List (Str × PyValue)) (m : Str) (cell : Cell) : Cell :=
  match cell.getLast? with
  | none => [[]]
  | some p => [applyAll dict (replace_in_text p machineNameKey (.vstr m))]

/-- Machine-table expansion: the template row is captured at index 1 before
all non-header rows are removed, then one row per machine name is appended.
If the table has fewer than two rows, `template_row` is `None` and nothing
at all happens.  (Each added row has the same number of cells as the
template row.) -/
def expandMachineTable (dict : List (Str × PyValue)) (ms : List Str) (t : Table) : Table :=
  match t with
  | header :: templateRow :: _ =>
      header :: ms.map (fun m => templateRow.map (machineCell dict m))
  | _ => t

/-- Per-table processing of `_replace_placeholders`: a machine table with a
nonempty machine-name list is expanded, every other table has every cell
paragraph substituted in place. -/
def processTable (dict : List (Str × PyValue)) (ms : List Str) (t : Table) : Table :=
  if isMachineTable t && !ms.isEmpty then expandMachineTable dict ms t
  else t.map fun row => row.map fun cell => cell.map (applyAll dict)

/-- `_replace_placeholders(doc, data)`: substitute in every top-level
paragraph, then process every table. -/
def replacePlaceholders (r : ContractData) (doc : Docx) : Docx :=
  { paragraphs := doc.paragraphs.map (applyAll (dataDict r)),
    tables := doc.tables.map (processTable (dataDict r) r.machine_names) }

/-- python-docx `_Cell.text`: the cell's paragraph texts joined by newlines. -/
def cellText (c : Cell) : Str := List.intercalate ['\n'] c

/-- All textual content of a document (top-level paragraphs and every cell
paragraph of every table), used to state placeholder-freeness. -/
def allTexts (doc : Docx) : List Str :=
  doc.paragraphs ++ (doc.tables.map (fun t => (t.map List.flatten).flatten)).flatten

/- ---------- extraction agent (src/agents/extraction_agent.py) ---------- -/

/-- Python `\s` whitespace class (ASCII part). -/
def pyWhitespace (c : Char) : Bool :=
  c == ' ' || c == '\t' || c == '\n' || c == '\r' || c == Char.ofNat 11 || c == Char.ofNat 12

def fenceJson : Str := "```json".data

def fence : Str := "```".data

/-- `re.sub(r'```json\s*|\s*```', '', s)` with fuel: at each position, first
try to consume a literal ```` ```json ```` plus following whitespace, else a
whitespace run followed immediately by ```` ``` ````, else keep the
character. -/
def stripFencesF : Nat → Str → Str
  | _, [] => []
  | 0, s => s
  | fuel+1, c :: rest =>
    if fenceJson.isPrefixOf (c :: rest) then
      stripFencesF fuel (((c :: rest).drop fenceJson.length).dropWhile pyWhitespace)
    else
      let r := (c :: rest).dropWhile pyWhitespace
      if fence.isPrefixOf r then stripFencesF fuel (r.drop fence.length)
      else c :: stripFencesF fuel rest

def stripFences (s : Str) : Str := stripFencesF s.length s

/-- Python `str.strip()` (whitespace strip). -/
def stripWs (s : Str) : Str :=
  ((s.dropWhile pyWhitespace).reverse.dropWhile pyWhitespace).reverse

/-- The response cleanup in `extract`: remove markdown code fences, then
`.strip()`, then `re.sub(r'^\s+|\s+$', '', ...)` (a second strip). -/
def cleanJson (s : Str) : Str := stripWs (stripWs (stripFences s))

/-- The dictionary `extract` returns: the validated record's `.dict()` on
success (which includes `address`), or the fixed default dictionary (which
has no `address` key) on failure. -/
structure RecordDict where
  client_name : Str
  effective_date : PyDate
  machine_names : List Str
  subscription_duration_months : Int
  purchase_order : Str
  address : Option Str
deriving DecidableEq

def toRecordDict (d : ContractData) : RecordDict :=
  { client_name := d.client_name
    effective_date := d.effective_date
    machine_names := d.machine_names
    subscription_duration_months := d.subscription_duration_months
    purchase_order := d.purchase_order
    address := some d.address }

/-- `ContractExtractionAgent.extract`, with the external collaborators as
parameters: `llmResponse` is the outcome of prompt formatting plus
`self.llm.invoke` (an exception anywhere in the outer `try` is `.error`),
`parseJson` is `json.loads` and `validate` is `ContractData(**data)`
(pydantic).  Each failure is caught and routed to the fixed default
dictionary with empty client name, the given today's date, empty machine
list, 12-month duration and empty purchase order. -/
def extract {J : Type} (today : PyDate) (llmResponse : Except Str Str)
    (parseJson : Str → Except Str J) (validate : J → Except Str ContractData) :
    RecordDict :=
  match llmResponse with
  | .error _ =>
      { client_name := [], effective_date := today, machine_names := [],
        subscription_duration_months := 12, purchase_order := [], address := none }
  | .ok resp =>
    match parseJson (cleanJson resp) with
    | .error _ =>
        { client_name := [], effective_date := today, machine_names := [],
          subscription_duration_months := 12, purchase_order := [], address := none }
    | .ok j =>
      match validate j with
      | .error _ =>
          { client_name := [], effective_date := today, machine_names := [],
            subscription_duration_months := 12, purchase_order := [], address := none }
      | .ok d => toRecordDict d

/- ---------- concrete fixtures used in witnesses and counterexamples ---------- -/

/-- A record with machine names `A`, `B` and otherwise default-like fields. -/
def recAB : ContractData :=
  { client_name := []
    effective_date := ⟨2024, 3, 30⟩
    machine_names := ["A".data, "B".data]
    subscription_duration_months := 12
    purchase_order := []
    address := [] }

/-- A record with a single machine name `A`. -/
def recA : ContractData :=
  { recAB with machine_names := ["A".data] }

/-- A record whose every field value is clean: nonempty and sharing no
character with its own placeholder (used for witnesses). -/
def recClean : ContractData :=
  { client_name := "XYZ".data
    effective_date := ⟨2024, 7, 15⟩
    machine_names := ["XY-100".data]
    subscription_duration_months := 77
    purchase_order := "QQ-9".data
    address := "OWL WY 98".data }

/-- A machine table (the word `Machines` appears in the header) whose
template row consists of one cell with a single paragraph holding the
`machine_name` placeholder. -/
def tableMachine : Table :=
  [[["Machines".data]], [[braced machineNameKey]]]

/-- As `tableMachine`, but the header does not mention machines; only the
placeholder itself contains the substring `machine`. -/
def tableEquipment : Table :=
  [[["Equipment".data]], [[braced machineNameKey]]]

/-- A placeholder-free table that mentions machines in its header. -/
def tableWordOnly : Table :=
  [[["Machines".data]], [["Foo".data]]]

/-- A machine table whose template-row cell has TWO paragraphs. -/
def tableTwoParas : Table :=
  [[["Machine List".data]], [[braced machineNameKey, "extra".data]]]

/-- A one-row table mentioning a machine (no template row). -/
def tableOneRow : Table := [[["Machine A".data]]]

/-- An ordinary table with a client-name placeholder. -/
def tableHello : Table := [[["hello ".data ++ braced "client_name".data]]]

/-- Documents wrapping single tables, and a placeholder-free document. -/
def docMachine : Docx := ⟨[], [tableMachine]⟩

def docEquip : Docx := ⟨[], [tableEquipment]⟩

def docWordOnly : Docx := ⟨[], [tableWordOnly]⟩

def docPlain : Docx := ⟨["Just text".data], [[[["Totals".data]]]]⟩

/-- A record whose client name collides with an unknown placeholder name. -/
def recFoo : ContractData := { recAB with client_name := "foo".data }

/- ---------- basic lemmas about the embedding ---------- -/

theorem braced_ne_nil (s : Str) : braced s ≠ [] := by simp [braced]

theorem braced_sub_doubleBraced (s : Str) : braced s <:+: doubleBraced s :=
  ⟨['{'], ['}'], by simp [doubleBraced, braced]⟩

theorem not_sub_nil (p : Str) (hp : p ≠ []) : ¬ p <:+: ([] : Str) := by
  intro h
  obtain ⟨s, u, h2⟩ := h
  have hl := congrArg List.length h2
  simp at hl
  exact hp hl.2.1

theorem nil_sub (t : Str) : ([] : Str) <:+: t := ⟨[], t, rfl⟩

theorem sub_of_pref {l1 l2 : Str} (h : l1 <+: l2) : l1 <:+: l2 :=
  List.IsPrefix.isInfix h

theorem sub_of_suf {l1 l2 : Str} (h : l1 <:+ l2) : l1 <:+: l2 :=
  List.IsSuffix.isInfix h

/-- `replaceAllF` does not depend on the fuel as long as the fuel covers the
text length. -/
theorem replaceAllF_fuel (p v : Str) :
    ∀ (f1 f2 : Nat) (t : Str), t.length ≤ f1 → t.length ≤ f2 →
      replaceAllF p v f1 t = replaceAllF p v f2 t := by
  intro f1
  induction f1 with
  | zero =>
    intro f2 t h1 _
    have : t = [] := List.length_eq_zero.mp (Nat.le_zero.mp h1)
    subst this
    cases f2 <;> rfl
  | succ n ih =>
    intro f2 t h1 h2
    cases t with
    | nil => cases f2 <;> rfl
    | cons c t0 =>
      cases f2 with
      | zero => exact absurd h2 (by simp)
      | succ m =>
        show (if p.isPrefixOf (c :: t0) then v ++ replaceAllF p v n (t0.drop (p.length - 1))
              else c :: replaceAllF p v n t0) =
          (if p.isPrefixOf (c :: t0) then v ++ replaceAllF p v m (t0.drop (p.length - 1))
              else c :: replaceAllF p v m t0)
        have hlen : t0.length ≤ n := Nat.le_of_succ_le_succ h1
        have hlenm : t0.length ≤ m := Nat.le_of_succ_le_succ h2
        have hdn : (t0.drop (p.length - 1)).length ≤ n := by rw [List.length_drop]; omega
        have hdm : (t0.drop (p.length - 1)).length ≤ m := by rw [List.length_drop]; omega
        by_cases hm : p.isPrefixOf (c :: t0)
        · rw [if_pos hm, if_pos hm, ih m _ hdn hdm]
        · rw [if_neg hm, if_neg hm, ih m t0 hlen hlenm]

theorem replaceAll_nil (p v : Str) : replaceAll p v [] = [] := rfl

theorem replaceAll_cons_pos (p v : Str) (c : Char) (t : Str) (_hp : p ≠ [])
    (hm : p <+: (c :: t)) :
    replaceAll p v (c :: t) = v ++ replaceAll p v (t.drop (p.length - 1)) := by
  have hb : p.isPrefixOf (c :: t) = true := List.isPrefixOf_iff_prefix.mpr hm
  show replaceAllF p v (t.length + 1) (c :: t) = _
  show (if p.isPrefixOf (c :: t) then v ++ replaceAllF p v t.length (t.drop (p.length - 1))
        else c :: replaceAllF p v t.length t) = _
  rw [if_pos hb]
  unfold replaceAll
  rw [replaceAllF_fuel p v t.length (t.drop (p.length - 1)).length _
    (by rw [List.length_drop]; omega) le_rfl]

theorem replaceAll_cons_neg (p v : Str) (c : Char) (t : Str)
    (hm : ¬ p <+: (c :: t)) :
    replaceAll p v (c :: t) = c :: replaceAll p v t := by
  have hb : ¬ p.isPrefixOf (c :: t) = true := fun h =>
    hm ( List.isPrefixOf_iff_prefix.mp h)
  show replaceAllF p v (t.length + 1) (c :: t) = _
  show (if p.isPrefixOf (c :: t) then v ++ replaceAllF p v t.length (t.drop (p.length - 1))
        else c :: replaceAllF p v t.length t) = _
  rw [if_neg hb]
  rfl

/-- A prefix of a replacement result whose characters are disjoint from the
replacement string was already a prefix of the original text. -/
theorem pref_of_replaceAll (p v : Str) (hp : p ≠ []) (hv : v ≠ []) :
    ∀ (n : Nat) (t w : Str), t.length ≤ n → (∀ c ∈ v, c ∉ w) →
      w <+: replaceAll p v t → w <+: t := by
  intro n
  induction n with
  | zero =>
    intro t w ht _ hw
    have : t = [] := List.length_eq_zero.mp (Nat.le_zero.mp ht)
    subst this
    rw [replaceAll_nil] at hw
    exact hw
  | succ n ih =>
    intro t w ht hd hw
    cases t with
    | nil =>
      rw [replaceAll_nil] at hw
      exact hw
    | cons c t0 =>
      by_cases hm : p <+: (c :: t0)
      · rw [replaceAll_cons_pos p v c t0 hp hm] at hw
        cases w with
        | nil => exact List.nil_prefix
        | cons a w' =>
          obtain ⟨b, v', rfl⟩ : ∃ b v', v = b :: v' := by
            cases v with
            | nil => exact absurd rfl hv
            | cons b v' => exact ⟨b, v', rfl⟩
          rw [List.cons_append, List.cons_prefix_cons] at hw
          obtain ⟨hab, -⟩ := hw
          subst hab
          exact absurd (List.mem_cons_self a w') (hd a (List.mem_cons_self a v'))
      · rw [replaceAll_cons_neg p v c t0 hm] at hw
        cases w with
        | nil => exact List.nil_prefix
        | cons a w' =>
          rw [List.cons_prefix_cons] at hw
          obtain ⟨rfl, hw'⟩ := hw
          exact List.cons_prefix_cons.mpr
            ⟨rfl, ih t0 w' (Nat.le_of_succ_le_succ ht)
              (fun c' hc' hcw' => hd c' hc' (List.mem_cons_of_mem a hcw')) hw'⟩

/-- A nonempty substring avoiding all characters of `a` lies in `b` whenever
it lies in `a ++ b`. -/
theorem sub_of_append_disjoint (w b : Str) (hw : w ≠ []) :
    ∀ a : Str, (∀ c ∈ a, c ∉ w) → w <:+: a ++ b → w <:+: b := by
  intro a
  induction a with
  | nil =>
    intro _ h
    simpa using h
  | cons c a' ih =>
    intro hd h
    rw [List.cons_append] at h
    rcases List.infix_cons_iff.mp h with hpre | htail
    · cases w with
      | nil => exact absurd rfl hw
      | cons x w' =>
        rw [List.cons_prefix_cons] at hpre
        obtain ⟨rfl, -⟩ := hpre
        exact absurd (List.mem_cons_self x w') (hd x (List.mem_cons_self x a'))
    · exact ih (fun c' hc' => hd c' (List.mem_cons_of_mem c hc')) htail

/-- Replacement is the identity when the pattern does not occur. -/
theorem replaceAll_of_not_sub (p v : Str) (_hp : p ≠ []) :
    ∀ (n : Nat) (t : Str), t.length ≤ n → ¬ p <:+: t → replaceAll p v t = t := by
  intro n
  induction n with
  | zero =>
    intro t ht _
    have : t = [] := List.length_eq_zero.mp (Nat.le_zero.mp ht)
    subst this
    rfl
  | succ n ih =>
    intro t ht hnt
    cases t with
    | nil => rfl
    | cons c t0 =>
      by_cases hm : p <+: (c :: t0)
      · exact absurd (sub_of_pref hm) hnt
      · rw [replaceAll_cons_neg p v c t0 hm]
        rw [ih t0 (Nat.le_of_succ_le_succ ht) (fun h => hnt (List.infix_cons h))]

/-- If the pattern occurs, the replacement string occurs in the result. -/
theorem sub_v_replaceAll (p v : Str) (hp : p ≠ []) :
    ∀ (n : Nat) (t : Str), t.length ≤ n → p <:+: t → v <:+: replaceAll p v t := by
  intro n
  induction n with
  | zero =>
    intro t ht hs
    have : t = [] := List.length_eq_zero.mp (Nat.le_zero.mp ht)
    subst this
    exact absurd hs (not_sub_nil p hp)
  | succ n ih =>
    intro t ht hs
    cases t with
    | nil => exact absurd hs (not_sub_nil p hp)
    | cons c t0 =>
      by_cases hm : p <+: (c :: t0)
      · rw [replaceAll_cons_pos p v c t0 hp hm]
        exact sub_of_pref (List.prefix_append v _)
      · rw [replaceAll_cons_neg p v c t0 hm]
        rcases List.infix_cons_iff.mp hs with hpre | htail
        · exact absurd hpre hm
        · exact List.infix_cons (ih t0 (Nat.le_of_succ_le_succ ht) htail)

/-- No occurrence of the pattern survives a replacement whose replacement
string is nonempty and shares no character with the pattern. -/
theorem not_sub_replaceAll_self (p v : Str) (hp : p ≠ []) (hv : v ≠ [])
    (hd : ∀ c ∈ v, c ∉ p) :
    ∀ (n : Nat) (t : Str), t.length ≤ n → ¬ p <:+: replaceAll p v t := by
  intro n
  induction n with
  | zero =>
    intro t ht
    have : t = [] := List.length_eq_zero.mp (Nat.le_zero.mp ht)
    subst this
    exact not_sub_nil p hp
  | succ n ih =>
    intro t ht
    cases t with
    | nil => exact not_sub_nil p hp
    | cons c t0 =>
      by_cases hm : p <+: (c :: t0)
      · rw [replaceAll_cons_pos p v c t0 hp hm]
        intro hcon
        have h2 := sub_of_append_disjoint p _ hp v hd hcon
        exact ih (t0.drop (p.length - 1))
          (by rw [List.length_drop]; have := Nat.le_of_succ_le_succ ht; omega) h2
      · rw [replaceAll_cons_neg p v c t0 hm]
        intro hcon
        rcases List.infix_cons_iff.mp hcon with hpre | htail
        · cases p with
          | nil => exact hp rfl
          | cons a p' =>
            rw [List.cons_prefix_cons] at hpre
            obtain ⟨rfl, hp'⟩ := hpre
            have hrefl : p' <+: t0 :=
              pref_of_replaceAll (a :: p') v (by simp) hv n t0 p'
                (Nat.le_of_succ_le_succ ht)
                (fun c' hc' hcp' => hd c' hc' (List.mem_cons_of_mem a hcp')) hp'
            exact hm (List.cons_prefix_cons.mpr ⟨rfl, hrefl⟩)
        · exact ih t0 (Nat.le_of_succ_le_succ ht) htail

/-- Absence of a pattern `p` is preserved by replacing any pattern `q` with a
nonempty replacement string sharing no character with `p`. -/
theorem not_sub_replaceAll_pres (q p v : Str) (hq : q ≠ []) (hv : v ≠ [])
    (hd : ∀ c ∈ v, c ∉ p) :
    ∀ (n : Nat) (t : Str), t.length ≤ n → ¬ p <:+: t → ¬ p <:+: replaceAll q v t := by
  intro n
  induction n with
  | zero =>
    intro t ht hnt
    have : t = [] := List.length_eq_zero.mp (Nat.le_zero.mp ht)
    subst this
    exact hnt
  | succ n ih =>
    intro t ht hnt
    have hp : p ≠ [] := fun h => hnt (h ▸ nil_sub t)
    cases t with
    | nil => exact hnt
    | cons c t0 =>
      by_cases hm : q <+: (c :: t0)
      · rw [replaceAll_cons_pos q v c t0 hq hm]
        intro hcon
        have h2 := sub_of_append_disjoint p _ hp v hd hcon
        refine ih (t0.drop (q.length - 1))
          (by rw [List.length_drop]; have := Nat.le_of_succ_le_succ ht; omega) ?_ h2
        intro h3
        exact hnt (List.infix_cons (h3.trans (sub_of_suf (List.drop_suffix _ _))))
      · rw [replaceAll_cons_neg q v c t0 hm]
        intro hcon
        rcases List.infix_cons_iff.mp hcon with hpre | htail
        · cases p with
          | nil => exact hp rfl
          | cons a p' =>
            rw [List.cons_prefix_cons] at hpre
            obtain ⟨rfl, hp'⟩ := hpre
            have hrefl : p' <+: t0 :=
              pref_of_replaceAll q v hq hv n t0 p'
                (Nat.le_of_succ_le_succ ht)
                (fun c' hc' hcp' => hd c' hc' (List.mem_cons_of_mem a hcp')) hp'
            exact hnt (sub_of_pref (List.cons_prefix_cons.mpr ⟨rfl, hrefl⟩))
        · exact ih t0 (Nat.le_of_succ_le_succ ht)
            (fun h => hnt (List.infix_cons h)) htail

/-- An occurrence of the replacement string survives any further replacement
by the same replacement string. -/
theorem sub_v_replaceAll_keep (q v : Str) (hq : q ≠ []) (t : Str) (h : v <:+: t) :
    v <:+: replaceAll q v t := by
  by_cases hs : q <:+: t
  · exact sub_v_replaceAll q v hq t.length t le_rfl hs
  · rw [replaceAll_of_not_sub q v hq t.length t le_rfl hs]
    exact h

/- ---------- resolver-level lemmas ---------- -/

theorem applyPlaceholder_neg (vs text ph : Str) (h : ¬ ph <:+: text) :
    applyPlaceholder vs text ph = text := if_neg h

theorem applyPlaceholder_pos (vs text ph : Str) (h : ph <:+: text) :
    applyPlaceholder vs text ph = replaceAll (braced vs) vs (replaceAll ph vs text) :=
  if_pos h

theorem replace_in_text_unfold (text key : Str) (v : PyValue) :
    replace_in_text text key v =
      applyPlaceholder (stripBraces (pyStr v))
        (applyPlaceholder (stripBraces (pyStr v))
          (applyPlaceholder (stripBraces (pyStr v))
            (applyPlaceholder (stripBraces (pyStr v))
              (applyPlaceholder (stripBraces (pyStr v))
                (applyPlaceholder (stripBraces (pyStr v)) text (braced key))
                (doubleBraced key))
              (braced key))
            (doubleBraced key))
          (doubleBraced key))
        (braced key) := rfl

/-- If the single-brace placeholder does not occur in a text, the resolver
leaves the text unchanged (the double-brace spelling contains the
single-brace one, so it cannot occur either). -/
theorem replace_in_text_id (text key : Str) (v : PyValue)
    (h : ¬ braced key <:+: text) : replace_in_text text key v = text := by
  have hD : ¬ doubleBraced key <:+: text :=
    fun hd => h ((braced_sub_doubleBraced key).trans hd)
  rw [replace_in_text_unfold]
  rw [applyPlaceholder_neg _ _ _ h, applyPlaceholder_neg _ _ _ hD,
    applyPlaceholder_neg _ _ _ h, applyPlaceholder_neg _ _ _ hD,
    applyPlaceholder_neg _ _ _ hD, applyPlaceholder_neg _ _ _ h]

/-- Under a clean value (nonempty, sharing no character with the
placeholder), a resolver run on a text containing the placeholder is the
first loop iteration alone: replace the placeholder, then the brace-wrapped
value; no placeholder spelling survives into the later iterations. -/
theorem replace_in_text_clean (text key : Str) (v : PyValue)
    (hvs : stripBraces (pyStr v) ≠ [])
    (hd : ∀ c ∈ stripBraces (pyStr v), c ∉ braced key)
    (hS : braced key <:+: text) :
    replace_in_text text key v =
      replaceAll (braced (stripBraces (pyStr v))) (stripBraces (pyStr v))
        (replaceAll (braced key) (stripBraces (pyStr v)) text) ∧
    ¬ braced key <:+: replace_in_text text key v := by
  have h1 : ¬ braced key <:+: replaceAll (braced key) (stripBraces (pyStr v)) text :=
    not_sub_replaceAll_self (braced key) (stripBraces (pyStr v)) (braced_ne_nil key)
      hvs hd text.length text le_rfl
  have h2 : ¬ braced key <:+:
      replaceAll (braced (stripBraces (pyStr v))) (stripBraces (pyStr v))
        (replaceAll (braced key) (stripBraces (pyStr v)) text) :=
    not_sub_replaceAll_pres (braced (stripBraces (pyStr v))) (braced key)
      (stripBraces (pyStr v)) (braced_ne_nil _) hvs hd _ _ le_rfl h1
  have hD2 : ¬ doubleBraced key <:+:
      replaceAll (braced (stripBraces (pyStr v))) (stripBraces (pyStr v))
        (replaceAll (braced key) (stripBraces (pyStr v)) text) :=
    fun hdd => h2 ((braced_sub_doubleBraced key).trans hdd)
  have hfold : replace_in_text text key v =
      replaceAll (braced (stripBraces (pyStr v))) (stripBraces (pyStr v))
        (replaceAll (braced key) (stripBraces (pyStr v)) text) := by
    rw [replace_in_text_unfold, applyPlaceholder_pos _ _ _ hS]
    rw [applyPlaceholder_neg _ _ _ hD2, applyPlaceholder_neg _ _ _ h2,
      applyPlaceholder_neg _ _ _ hD2, applyPlaceholder_neg _ _ _ hD2,
      applyPlaceholder_neg _ _ _ h2]
  exact ⟨hfold, hfold ▸ h2⟩

/- ---------- engine-level helper lemmas ---------- -/

theorem map_id_of {α : Type} (f : α → α) :
    ∀ l : List α, (∀ a ∈ l, f a = a) → l.map f = l := by
  intro l
  induction l with
  | nil => intro _; rfl
  | cons a l ih =>
    intro h
    rw [List.map_cons, h a (List.mem_cons_self a l),
      ih (fun b hb => h b (List.mem_cons_of_mem a hb))]

/-- If no key of the dictionary has its placeholder in the text, the inner
substitution loop of `_replace_placeholders` leaves the text unchanged. -/
theorem applyAll_id (dict : List (Str × PyValue)) (text : Str)
    (h : ∀ kv ∈ dict, ¬ braced kv.1 <:+: text) : applyAll dict text = text := by
  induction dict with
  | nil => rfl
  | cons kv dict ih =>
    show applyAll dict (replace_in_text text kv.1 kv.2) = text
    rw [replace_in_text_id text kv.1 kv.2 (h kv (List.mem_cons_self kv dict))]
    exact ih (fun kv' hkv' => h kv' (List.mem_cons_of_mem kv hkv'))

theorem mem_allTexts_of_table {doc : Docx} {tb : Table} {row : Row} {cell : Cell}
    {p : Str} (htb : tb ∈ doc.tables) (hr : row ∈ tb) (hc : cell ∈ row)
    (hp : p ∈ cell) : p ∈ allTexts doc := by
  unfold allTexts
  refine List.mem_append_right _ ?_
  rw [List.mem_flatten]
  refine ⟨(tb.map List.flatten).flatten, List.mem_map.mpr ⟨tb, htb, rfl⟩, ?_⟩
  rw [List.mem_flatten]
  exact ⟨row.flatten, List.mem_map.mpr ⟨row, hr, rfl⟩, List.mem_flatten.mpr ⟨cell, hc, hp⟩⟩

/-- A table that is not machine-classified (or an empty machine list) takes
the default branch: every cell paragraph substituted in place. -/
theorem processTable_default (dict : List (Str × PyValue)) (ms : List Str) (tb : Table)
    (h : isMachineTable tb = false ∨ ms = []) :
    processTable dict ms tb =
      tb.map fun row => row.map fun cell => cell.map (applyAll dict) := by
  unfold processTable
  rcases h with h | h
  · rw [h]
    simp
  · subst h
    simp

/-- The engine is the identity on documents with no occurrence of any Record
field placeholder in any text and no (effective) machine table. -/
theorem replacePlaceholders_id (r : ContractData) (doc : Docx)
    (h1 : ∀ t ∈ allTexts doc, ∀ kv ∈ dataDict r, ¬ braced kv.1 <:+: t)
    (h2 : ∀ tb ∈ doc.tables, isMachineTable tb = false ∨ r.machine_names = []) :
    replacePlaceholders r doc = doc := by
  unfold replacePlaceholders
  have hpar : doc.paragraphs.map (applyAll (dataDict r)) = doc.paragraphs := by
    refine map_id_of _ _ (fun t ht => ?_)
    exact applyAll_id _ _ (h1 t (List.mem_append_left _ ht))
  have htab : doc.tables.map (processTable (dataDict r) r.machine_names) = doc.tables := by
    refine map_id_of _ _ (fun tb htb => ?_)
    rw [processTable_default _ _ _ (h2 tb htb)]
    refine map_id_of _ _ (fun row hr => ?_)
    refine map_id_of _ _ (fun cell hc => ?_)
    refine map_id_of _ _ (fun t ht => ?_)
    exact applyAll_id _ _ (h1 t (mem_allTexts_of_table htb hr hc ht))
  rw [hpar, htab]

/- ---------- preservation of unknown placeholders ---------- -/

theorem sub_append_of_sub (x l r : Str) (h : l <:+: r) : l <:+: x ++ r := by
  obtain ⟨s, t, rfl⟩ := h
  exact ⟨x ++ s, t, by simp⟩

/-- Replacement walks over a front segment that avoids the pattern's first
character without touching it. -/
theorem replaceAll_keep_front (p v : Str) (c0 : Char) (hph : p.head? = some c0) :
    ∀ (pre rest : Str), (∀ c ∈ pre, c ≠ c0) →
      replaceAll p v (pre ++ rest) = pre ++ replaceAll p v rest := by
  intro pre
  induction pre with
  | nil => intro rest _; rfl
  | cons a pre' ih =>
    intro rest hnc
    have hm : ¬ p <+: (a :: (pre' ++ rest)) := by
      intro hp2
      cases p with
      | nil => simp at hph
      | cons b p'' =>
        rw [List.head?_cons] at hph
        have hb : b = c0 := Option.some.inj hph
        rw [List.cons_prefix_cons] at hp2
        exact hnc a (List.mem_cons_self a pre') (hp2.1 ▸ hb)
    show replaceAll p v (a :: (pre' ++ rest)) = _
    rw [replaceAll_cons_neg p v a _ hm,
      ih rest (fun c hc => hnc c (List.mem_cons_of_mem a hc))]
    rfl

/-- Two brace-wrapped brace-free words, one of which closes inside the
other, must be equal. -/
theorem eq_of_closing :
    ∀ (a b : Str), (∀ c ∈ a, isBraceChar c = false) → (∀ c ∈ b, isBraceChar c = false) →
      a ++ ['}'] <+: b ++ ['}'] → a = b := by
  intro a
  induction a with
  | nil =>
    intro b _ hb h
    cases b with
    | nil => rfl
    | cons c b' =>
      rw [List.nil_append, List.cons_append, List.cons_prefix_cons] at h
      obtain ⟨h1, -⟩ := h
      have := hb c (List.mem_cons_self c b')
      rw [← h1] at this
      simp [isBraceChar] at this
  | cons x a' ih =>
    intro b ha hb h
    cases b with
    | nil =>
      rw [List.cons_append, List.nil_append, List.cons_prefix_cons] at h
      obtain ⟨h1, -⟩ := h
      have := ha x (List.mem_cons_self x a')
      rw [h1] at this
      simp [isBraceChar] at this
    | cons y b' =>
      rw [List.cons_append, List.cons_append, List.cons_prefix_cons] at h
      obtain ⟨rfl, h2⟩ := h
      rw [ih b' (fun c hc => ha c (List.mem_cons_of_mem _ hc))
        (fun c hc => hb c (List.mem_cons_of_mem _ hc)) h2]

theorem braced_pref_eq (u w : Str) (hu : ∀ c ∈ u, isBraceChar c = false)
    (hw : ∀ c ∈ w, isBraceChar c = false) (h : braced u <+: braced w) : u = w := by
  unfold braced at h
  rw [List.cons_prefix_cons] at h
  exact eq_of_closing u w hu hw h.2

theorem braced_head (w : Str) : (braced w).head? = some '{' := rfl

theorem braced_length (w : Str) : (braced w).length = w.length + 2 := by
  simp [braced]

/-- An occurrence of the placeholder of a brace-free unknown word `u`
survives replacing the placeholder of any other brace-free word `w`
(with an arbitrary replacement string): the two placeholders can never
overlap, so the occurrence of `braced u` is kept intact. -/
theorem sub_unknown_replaceAll (u w v : Str)
    (hu2 : ∀ c ∈ u, isBraceChar c = false)
    (hw2 : ∀ c ∈ w, isBraceChar c = false)
    (hne : w ≠ u) :
    ∀ (n : Nat) (t : Str), t.length ≤ n → braced u <:+: t →
      braced u <:+: replaceAll (braced w) v t := by
  intro n
  induction n with
  | zero =>
    intro t ht hU
    have : t = [] := List.length_eq_zero.mp (Nat.le_zero.mp ht)
    subst this
    exact absurd hU (not_sub_nil _ (braced_ne_nil u))
  | succ n ih =>
    intro t ht hU
    cases t with
    | nil => exact absurd hU (not_sub_nil _ (braced_ne_nil u))
    | cons c t0 =>
      by_cases hm : braced w <+: (c :: t0)
      · rw [replaceAll_cons_pos _ v c t0 (braced_ne_nil w) hm]
        obtain ⟨x, y, hxy⟩ := hU
        cases x with
        | nil =>
          rw [List.nil_append] at hxy
          have hup : braced u <+: c :: t0 := ⟨y, hxy⟩
          rcases List.prefix_or_prefix_of_prefix hup hm with h | h
          · exact absurd (braced_pref_eq u w hu2 hw2 h).symm hne
          · exact absurd (braced_pref_eq w u hw2 hu2 h) hne
        | cons a x' =>
          have hxlen : (braced w).length ≤ (a :: x').length := by
            by_contra hlt
            push_neg at hlt
            have hpw : braced w = ((a :: x') ++ (braced u ++ y)).take (braced w).length := by
              have := List.prefix_iff_eq_take.mp hm
              rw [← hxy, List.append_assoc] at this
              exact this
            rw [List.take_append_eq_append_take,
              List.take_of_length_le (Nat.le_of_lt hlt)] at hpw
            have hne0 : (braced w).length - (a :: x').length ≠ 0 := by omega
            obtain ⟨k, hk⟩ := Nat.exists_eq_succ_of_ne_zero hne0
            rw [hk] at hpw
            have hbu : braced u ++ y = '{' :: ((u ++ ['}']) ++ y) := by simp [braced]
            rw [hbu, List.take_succ_cons] at hpw
            have hpw2 : ('{' : Char) :: (w ++ ['}']) =
                (a :: x') ++ ('{' :: ((u ++ ['}']) ++ y).take k) := hpw
            rw [List.cons_append] at hpw2
            injection hpw2 with h1 h2
            have hmem : ('{' : Char) ∈ w ++ ['}'] := by
              rw [h2]
              exact List.mem_append_right _ (List.mem_cons_self _ _)
            rcases List.mem_append.mp hmem with h | h
            · have := hw2 '{' h
              simp [isBraceChar] at this
            · simp at h
          have hdrop : braced u <:+: (c :: t0).drop (braced w).length := by
            rw [← hxy, List.append_assoc, List.drop_append_eq_append_drop]
            have h0 : (braced w).length - (a :: x').length = 0 := by omega
            rw [h0, List.drop_zero]
            exact ⟨(a :: x').drop (braced w).length, y, by rw [List.append_assoc]⟩
          have hconv : (c :: t0).drop (braced w).length =
              t0.drop ((braced w).length - 1) := by
            rw [braced_length]
            rfl
          refine sub_append_of_sub v _ _ ?_
          refine ih _ ?_ (hconv ▸ hdrop)
          rw [List.length_drop]
          have := Nat.le_of_succ_le_succ ht
          omega
      · rw [replaceAll_cons_neg _ v c t0 hm]
        obtain ⟨x, y, hxy⟩ := hU
        cases x with
        | cons a x' =>
          have ht0 : braced u <:+: t0 := by
            rw [List.cons_append, List.cons_append] at hxy
            injection hxy with h1 h2
            exact ⟨x', y, h2⟩
          exact List.infix_cons (ih t0 (Nat.le_of_succ_le_succ ht) ht0)
        | nil =>
          rw [List.nil_append] at hxy
          have hxy2 : c :: t0 = '{' :: ((u ++ ['}']) ++ y) := by
            rw [← hxy]; simp [braced]
          injection hxy2 with hc htt
          subst hc
          rw [htt, replaceAll_keep_front (braced w) v '{' (braced_head w) (u ++ ['}']) y ?hnc]
          case hnc =>
            intro ch hch
            rcases List.mem_append.mp hch with h | h
            · intro hcc
              have := hu2 ch h
              rw [hcc] at this
              simp [isBraceChar] at this
            · intro hcc
              rw [hcc] at h
              simp at h
          exact ⟨[], replaceAll (braced w) v y, by simp [braced]⟩

theorem brace_free_of_not_mem_braced (vs key : Str)
    (h : ∀ c ∈ vs, c ∉ braced key) : ∀ c ∈ vs, isBraceChar c = false := by
  intro c hc
  have h2 := h c hc
  by_contra hbc
  have hbc2 : isBraceChar c = true := by
    cases h3 : isBraceChar c
    · exact absurd h3 hbc
    · rfl
  simp only [isBraceChar, Bool.or_eq_true, beq_iff_eq] at hbc2
  rcases hbc2 with rfl | rfl
  · exact h2 (List.mem_cons_self _ _)
  · exact h2 (List.mem_cons_of_mem _ (List.mem_append_right _ (List.mem_cons_self _ _)))

/-- The resolver keeps an occurrence of an unknown brace-free placeholder
intact, provided the resolved key and its value string are brace-free and
differ from the unknown name. -/
theorem replace_in_text_keeps_unknown (text key u : Str) (v : PyValue)
    (hk2 : ∀ c ∈ key, isBraceChar c = false)
    (hu2 : ∀ c ∈ u, isBraceChar c = false)
    (hku : key ≠ u)
    (hvs1 : stripBraces (pyStr v) ≠ [])
    (hvs2 : ∀ c ∈ stripBraces (pyStr v), c ∉ braced key)
    (hvsu : stripBraces (pyStr v) ≠ u)
    (hin : braced u <:+: text) :
    braced u <:+: replace_in_text text key v := by
  by_cases hS : braced key <:+: text
  · obtain ⟨heq, -⟩ := replace_in_text_clean text key v hvs1 hvs2 hS
    rw [heq]
    have hvsb : ∀ c ∈ stripBraces (pyStr v), isBraceChar c = false :=
      brace_free_of_not_mem_braced _ _ hvs2
    have h1 : braced u <:+: replaceAll (braced key) (stripBraces (pyStr v)) text :=
      sub_unknown_replaceAll u key _ hu2 hk2 hku text.length text le_rfl hin
    exact sub_unknown_replaceAll u (stripBraces (pyStr v)) _ hu2 hvsb hvsu _ _ le_rfl h1
  · rw [replace_in_text_id text key v hS]
    exact hin

/-- The whole per-text substitution loop keeps an unknown placeholder. -/
theorem applyAll_keeps_unknown (u : Str) (hu2 : ∀ c ∈ u, isBraceChar c = false) :
    ∀ (dict : List (Str × PyValue)) (text : Str),
      (∀ kv ∈ dict, (∀ c ∈ kv.1, isBraceChar c = false) ∧ kv.1 ≠ u ∧
        stripBraces (pyStr kv.2) ≠ [] ∧
        (∀ c ∈ stripBraces (pyStr kv.2), c ∉ braced kv.1) ∧
        stripBraces (pyStr kv.2) ≠ u) →
      braced u <:+: text → braced u <:+: applyAll dict text := by
  intro dict
  induction dict with
  | nil =>
    intro text _ h
    exact h
  | cons kv dict ih =>
    intro text hd hin
    obtain ⟨hk2, hku, hv1, hv2, hv3⟩ := hd kv (List.mem_cons_self kv dict)
    exact ih (replace_in_text text kv.1 kv.2)
      (fun kv' h' => hd kv' (List.mem_cons_of_mem kv h'))
      (replace_in_text_keeps_unknown text kv.1 u kv.2 hk2 hu2 hku hv1 hv2 hv3 hin)

/-- The keys of the Record dictionary contain no braces. -/
theorem dataDict_keys_brace_free (r : ContractData) :
    ∀ kv ∈ dataDict r, ∀ c ∈ kv.1, isBraceChar c = false := by
  intro kv hkv
  simp only [dataDict, List.mem_cons, List.not_mem_nil, or_false] at hkv
  rcases hkv with rfl | rfl | rfl | rfl | rfl | rfl
  · exact (by decide : ∀ c ∈ "client_name".data, isBraceChar c = false)
  · exact (by decide : ∀ c ∈ "effective_date".data, isBraceChar c = false)
  · exact (by decide : ∀ c ∈ "machine_names".data, isBraceChar c = false)
  · exact (by decide : ∀ c ∈ "subscription_duration_months".data, isBraceChar c = false)
  · exact (by decide : ∀ c ∈ "purchase_order".data, isBraceChar c = false)
  · exact (by decide : ∀ c ∈ "address".data, isBraceChar c = false)

/- ---------- dropWhile lemmas for the brace-stripping code ---------- -/

theorem head_dropWhile_all (p : Char → Bool) :
    ∀ l : Str, ((l.dropWhile p).head?.all fun c => !p c) = true := by
  intro l
  induction l with
  | nil => rfl
  | cons a l ih =>
    rw [List.dropWhile_cons]
    by_cases h : p a
    · rw [if_pos h]
      exact ih
    · rw [if_neg h]
      have h2 : p a = false := by
        cases h3 : p a
        · rfl
        · exact absurd h3 h
      simp [h2]

theorem getLast_dropWhile (p : Char → Bool) :
    ∀ l : Str, l.dropWhile p ≠ [] → (l.dropWhile p).getLast? = l.getLast? := by
  intro l
  induction l with
  | nil =>
    intro h
    exact absurd rfl h
  | cons a l ih =>
    intro h
    rw [List.dropWhile_cons] at h ⊢
    by_cases hpa : p a
    · rw [if_pos hpa] at h ⊢
      have hl : l ≠ [] := by
        intro hnil
        rw [hnil] at h
        exact h rfl
      cases l with
      | nil => exact absurd rfl hl
      | cons b l' => rw [ih h, List.getLast?_cons_cons]
    · rw [if_neg hpa]

/-- The first character of a brace-stripped string is never a brace. -/
theorem stripBraces_head (s : Str) :
    ((stripBraces s).head?.all fun c => !isBraceChar c) = true := by
  unfold stripBraces
  rw [List.head?_reverse]
  by_cases hL : ((s.dropWhile isBraceChar).reverse.dropWhile isBraceChar) = []
  · rw [hL]
    rfl
  · rw [getLast_dropWhile isBraceChar _ hL, List.getLast?_reverse]
    exact head_dropWhile_all isBraceChar s

/-- The last character of a brace-stripped string is never a brace. -/
theorem stripBraces_last (s : Str) :
    ((stripBraces s).getLast?.all fun c => !isBraceChar c) = true := by
  unfold stripBraces
  rw [List.getLast?_reverse]
  exact head_dropWhile_all isBraceChar _

/-- Helper: under a clean value the resolver's output contains the value
string whenever the placeholder occurred. -/
theorem resolver_inserts_value (key : Str) (v : PyValue) (text : Str)
    (hvs : stripBraces (pyStr v) ≠ [])
    (hd : ∀ c ∈ stripBraces (pyStr v), c ∉ braced key)
    (hS : braced key <:+: text) :
    stripBraces (pyStr v) <:+: replace_in_text text key v := by
  obtain ⟨heq, -⟩ := replace_in_text_clean text key v hvs hd hS
  rw [heq]
  exact sub_v_replaceAll_keep _ _ (braced_ne_nil _) _
    (sub_v_replaceAll (braced key) _ (braced_ne_nil _) text.length text le_rfl hS)

/- ---------- claim theorems ---------- -/

/-- C2 (amended): for a field placeholder occurring in a text (single- or
double-brace spelling), provided the stringified, normalized, brace-stripped
value is nonempty and shares no character with the single-brace placeholder,
the resolver's output contains the value string and no residual single- or
double-brace placeholder for the field; and a text without the exact
single-brace placeholder (for instance one with brace-adjacent whitespace)
is returned unchanged. -/
theorem c2_placeholder_resolution (key : Str) (v : PyValue) (text : Str)
    (hvs : stripBraces (pyStr v) ≠ [])
    (hd : ∀ c ∈ stripBraces (pyStr v), c ∉ braced key) :
    ((braced key <:+: text ∨ doubleBraced key <:+: text) →
      stripBraces (pyStr v) <:+: replace_in_text text key v ∧
      ¬ braced key <:+: replace_in_text text key v ∧
      ¬ doubleBraced key <:+: replace_in_text text key v) ∧
    (¬ braced key <:+: text → replace_in_text text key v = text) := by
  constructor
  · intro hocc
    have hS : braced key <:+: text := by
      rcases hocc with h | h
      · exact h
      · exact (braced_sub_doubleBraced key).trans h
    obtain ⟨-, hres⟩ := replace_in_text_clean text key v hvs hd hS
    exact ⟨resolver_inserts_value key v text hvs hd hS, hres,
      fun hDD => hres ((braced_sub_doubleBraced key).trans hDD)⟩
  · exact replace_in_text_id text key v

theorem c2_witness :
    ((stripBraces (pyStr (PyValue.vstr "XYZ-99".data)) ≠ []) ∧
      (∀ c ∈ stripBraces (pyStr (PyValue.vstr "XYZ-99".data)),
        c ∉ braced "client_name".data) ∧
      braced "client_name".data <:+:
        ("Hi ".data ++ braced "client_name".data ++ " and ".data ++
          doubleBraced "client_name".data)) ∧
    (stripBraces (pyStr (PyValue.vstr "XYZ-99".data)) <:+:
      replace_in_text
        ("Hi ".data ++ braced "client_name".data ++ " and ".data ++
          doubleBraced "client_name".data)
        "client_name".data (PyValue.vstr "XYZ-99".data) ∧
    ¬ braced "client_name".data <:+:
      replace_in_text
        ("Hi ".data ++ braced "client_name".data ++ " and ".data ++
          doubleBraced "client_name".data)
        "client_name".data (PyValue.vstr "XYZ-99".data) ∧
    ¬ doubleBraced "client_name".data <:+:
      replace_in_text
        ("Hi ".data ++ braced "client_name".data ++ " and ".data ++
          doubleBraced "client_name".data)
        "client_name".data (PyValue.vstr "XYZ-99".data)) :=
  ⟨⟨by decide, by decide, by decide⟩,
    (c2_placeholder_resolution "client_name".data (PyValue.vstr "XYZ-99".data) _
      (by decide) (by decide)).1 (Or.inl (by decide))⟩

/-- C2 counterexample: with the Record value `a{client_name}b` for the field
`client_name`, resolving the text `{client_name}` leaves a residual
single-brace placeholder for the field in the output, contradicting the
claim's unqualified `no residual brace-wrapped placeholder`. -/
theorem c2_counterexample :
    braced "client_name".data <:+:
      replace_in_text (braced "client_name".data) "client_name".data
        (PyValue.vstr ("a".data ++ braced "client_name".data ++ "b".data)) := by
  decide

/-- C5 (confirmed): a table that is not machine-classified, or an empty
machine-name list, takes the default branch: every cell paragraph gets the
full substitution loop applied, and the table's row and cell structure is
preserved exactly. -/
theorem c5_regular_table (r : ContractData) (tb : Table)
    (h : isMachineTable tb = false ∨ r.machine_names = []) :
    processTable (dataDict r) r.machine_names tb =
      (tb.map fun row => row.map fun cell => cell.map (applyAll (dataDict r))) ∧
    (processTable (dataDict r) r.machine_names tb).length = tb.length ∧
    ∀ i : Nat, (processTable (dataDict r) r.machine_names tb)[i]?.map List.length =
      tb[i]?.map List.length := by
  have he := processTable_default (dataDict r) r.machine_names tb h
  refine ⟨he, ?_, ?_⟩
  · rw [he, List.length_map]
  · intro i
    rw [he, List.getElem?_map]
    cases tb[i]? with
    | none => rfl
    | some row => simp [List.length_map]

theorem c5_witness :
    (isMachineTable tableHello = false ∨ recClean.machine_names = []) ∧
    processTable (dataDict recClean) recClean.machine_names tableHello =
      (tableHello.map fun row => row.map fun cell =>
        cell.map (applyAll (dataDict recClean))) :=
  ⟨Or.inl (by decide),
    (c5_regular_table recClean tableHello (Or.inl (by decide))).1⟩

/-- C9 (confirmed): a machine-classified table with fewer than two rows is
left completely unchanged when the machine-name list is nonempty — no
expansion and no per-cell substitution either. -/
theorem c9_short_machine_table (r : ContractData) (tb : Table)
    (h1 : isMachineTable tb = true) (h2 : tb.length < 2)
    (h3 : r.machine_names ≠ []) :
    processTable (dataDict r) r.machine_names tb = tb := by
  unfold processTable
  have hms : r.machine_names.isEmpty = false := by
    cases h : r.machine_names.isEmpty
    · rfl
    · exact absurd (List.isEmpty_iff.mp h) h3
  rw [h1, hms]
  simp only [Bool.not_false, Bool.and_self, if_true]
  cases tb with
  | nil => rfl
  | cons a tl =>
    cases tl with
    | nil => rfl
    | cons b tl2 =>
      rw [List.length_cons, List.length_cons] at h2
      omega

theorem c9_witness :
    (isMachineTable tableOneRow = true ∧ tableOneRow.length < 2 ∧
      recA.machine_names ≠ []) ∧
    processTable (dataDict recA) recA.machine_names tableOneRow = tableOneRow :=
  ⟨⟨by decide, by decide, by decide⟩,
    c9_short_machine_table recA tableOneRow (by decide) (by decide) (by decide)⟩

/-- C1 (amended): for a machine table with a header plus one template row
and N >= 1 machine names, the output has 1 + N rows; and when every template
cell has a single paragraph, data row k is the template row with
`machine_name` replaced by machine k and all other fields resolved by the
ordinary substitution loop (for multi-paragraph template cells only the
last paragraph's substitution survives, see the counterexample). -/
theorem c1_machine_rows (r : ContractData) (header trow : Row)
    (hmach : isMachineTable [header, trow] = true)
    (hms : r.machine_names ≠ []) :
    (processTable (dataDict r) r.machine_names [header, trow]).length
        = 1 + r.machine_names.length ∧
    ∀ (k : Nat) (m : Str), r.machine_names[k]? = some m →
      (∀ cell ∈ trow, ∃ p, cell = [p]) →
      (processTable (dataDict r) r.machine_names [header, trow])[k + 1]? =
        some (trow.map fun cell =>
          [applyAll (dataDict r)
            (replace_in_text cell.headI machineNameKey (PyValue.vstr m))]) := by
  have hms2 : r.machine_names.isEmpty = false := by
    cases h : r.machine_names.isEmpty
    · rfl
    · exact absurd (List.isEmpty_iff.mp h) hms
  have hproc : processTable (dataDict r) r.machine_names [header, trow] =
      header :: r.machine_names.map (fun m => trow.map (machineCell (dataDict r) m)) := by
    unfold processTable
    rw [hmach, hms2]
    simp only [Bool.not_false, Bool.and_self, if_true]
    rfl
  constructor
  · rw [hproc]
    simp [List.length_map, Nat.add_comm]
  · intro k m hk hcells
    rw [hproc, List.getElem?_cons_succ, List.getElem?_map, hk, Option.map_some']
    refine congrArg some (List.map_congr_left ?_)
    intro cell hc
    obtain ⟨p, rfl⟩ := hcells cell hc
    simp [machineCell, List.headI]

theorem c1_witness :
    (isMachineTable [[["Equipment".data]], [[braced machineNameKey]]] = true ∧
      recClean.machine_names ≠ []) ∧
    (processTable (dataDict recClean) recClean.machine_names
        [[["Equipment".data]], [[braced machineNameKey]]]).length =
      1 + recClean.machine_names.length :=
  ⟨⟨by decide, by decide⟩,
    (c1_machine_rows recClean [["Equipment".data]] [[braced machineNameKey]]
      (by decide) (by decide)).1⟩

/-- C1 counterexample: a template cell with TWO paragraphs
(`{machine_name}` and `extra`).  The generated data row's cell holds only
the processed last paragraph (`extra`), not the substitution applied to the
whole cell text (`A` + newline + `extra`), so the generated row is not "a
copy of the template row's cell text with machine_name replaced". -/
theorem c1_counterexample :
    (processTable (dataDict recA) recA.machine_names tableTwoParas)[1]? =
        some [["extra".data]] ∧
    applyAll (dataDict recA)
        (replace_in_text (cellText [braced machineNameKey, "extra".data])
          machineNameKey (PyValue.vstr "A".data)) =
      "A".data ++ '\n' :: "extra".data ∧
    cellText ["extra".data] ≠ "A".data ++ '\n' :: "extra".data := by
  decide

/-- C3 (amended): re-running the engine with the same Record reproduces the
first output, provided the first output no longer contains any Record-field
placeholder and none of its tables is still machine-classified (or the
machine list is empty).  Without that proviso a second run rebuilds every
still-machine-classified table from its first data row, so data row k gets
machine name 1, not k — see the counterexample. -/
theorem c3_idempotent (r : ContractData) (doc : Docx)
    (h1 : ∀ t ∈ allTexts (replacePlaceholders r doc), ∀ kv ∈ dataDict r,
      ¬ braced kv.1 <:+: t)
    (h2 : ∀ tb ∈ (replacePlaceholders r doc).tables,
      isMachineTable tb = false ∨ r.machine_names = []) :
    replacePlaceholders r (replacePlaceholders r doc) = replacePlaceholders r doc :=
  replacePlaceholders_id r (replacePlaceholders r doc) h1 h2

theorem c3_witness :
    ((∀ t ∈ allTexts (replacePlaceholders recAB docEquip), ∀ kv ∈ dataDict recAB,
        ¬ braced kv.1 <:+: t) ∧
      (∀ tb ∈ (replacePlaceholders recAB docEquip).tables,
        isMachineTable tb = false ∨ recAB.machine_names = [])) ∧
    replacePlaceholders recAB (replacePlaceholders recAB docEquip) =
      replacePlaceholders recAB docEquip :=
  ⟨⟨by decide, by decide⟩, c3_idempotent recAB docEquip (by decide) (by decide)⟩

set_option maxRecDepth 4000 in
/-- C3 counterexample: a machine table whose header keeps the word
`Machines` stays machine-classified after expansion, so a second run with
`machine_names = [A, B]` rebuilds both data rows from the first data row:
row 2 of the once-run output holds `B`, but row 2 of the twice-run output
holds `A`, and the two outputs differ. -/
theorem c3_counterexample :
    replacePlaceholders recAB (replacePlaceholders recAB docMachine) ≠
      replacePlaceholders recAB docMachine ∧
    ((replacePlaceholders recAB docMachine).tables.headI)[2]? =
      some [["B".data]] ∧
    ((replacePlaceholders recAB (replacePlaceholders recAB docMachine)).tables.headI)[2]? =
      some [["A".data]] := by
  decide

/-- C4 (amended): the engine reproduces a placeholder-free document
verbatim, provided additionally that no table is machine-classified — the
classification is by the literal substring `machine`, not by placeholders —
or the Record's machine-name list is empty. -/
theorem c4_verbatim (r : ContractData) (doc : Docx)
    (h1 : ∀ t ∈ allTexts doc, ∀ k ∈ machineNameKey :: (dataDict r).map Prod.fst,
      ¬ braced k <:+: t)
    (h2 : ∀ tb ∈ doc.tables, isMachineTable tb = false ∨ r.machine_names = []) :
    replacePlaceholders r doc = doc := by
  refine replacePlaceholders_id r doc ?_ h2
  intro t ht kv hkv
  exact h1 t ht kv.1 (List.mem_cons_of_mem _ (List.mem_map.mpr ⟨kv, hkv, rfl⟩))

theorem c4_witness :
    ((∀ t ∈ allTexts docPlain, ∀ k ∈ machineNameKey :: (dataDict recAB).map Prod.fst,
        ¬ braced k <:+: t) ∧
      (∀ tb ∈ docPlain.tables, isMachineTable tb = false ∨ recAB.machine_names = [])) ∧
    replacePlaceholders recAB docPlain = docPlain :=
  ⟨⟨by decide, by decide⟩, c4_verbatim recAB docPlain (by decide) (by decide)⟩

/-- C4 counterexample: a document whose only table is placeholder-free but
mentions `Machines` in its header.  With a two-element machine list the
engine expands the table from 2 to 3 rows, so the output is not verbatim
equal to the input even though the input contains no placeholder at all. -/
theorem c4_counterexample :
    (∀ t ∈ allTexts docWordOnly,
      ∀ k ∈ machineNameKey :: (dataDict recAB).map Prod.fst, ¬ braced k <:+: t) ∧
    replacePlaceholders recAB docWordOnly ≠ docWordOnly := by
  decide

/-- C7 (amended): an occurrence of a placeholder whose brace-free name is
not a Record field name is left verbatim by the engine's per-text
substitution loop (which is total, so no error is raised), provided every
Record value string is nonempty, shares no character with its own field's
placeholder, and differs from the unknown name — if a value string equals
the unknown name, the cleanup pass destroys the unknown placeholder, see
the counterexample. -/
theorem c7_unknown_kept (r : ContractData) (u text : Str)
    (hu2 : ∀ c ∈ u, isBraceChar c = false)
    (hukeys : ∀ kv ∈ dataDict r, kv.1 ≠ u)
    (hvals : ∀ kv ∈ dataDict r, stripBraces (pyStr kv.2) ≠ [] ∧
      (∀ c ∈ stripBraces (pyStr kv.2), c ∉ braced kv.1) ∧
      stripBraces (pyStr kv.2) ≠ u)
    (hin : braced u <:+: text) :
    braced u <:+: applyAll (dataDict r) text := by
  refine applyAll_keeps_unknown u hu2 (dataDict r) text ?_ hin
  intro kv hkv
  obtain ⟨h1, h2, h3⟩ := hvals kv hkv
  exact ⟨dataDict_keys_brace_free r kv hkv, hukeys kv hkv, h1, h2, h3⟩

theorem c7_witness :
    ((∀ c ∈ "foo".data, isBraceChar c = false) ∧
      (∀ kv ∈ dataDict recClean, kv.1 ≠ "foo".data) ∧
      (∀ kv ∈ dataDict recClean, stripBraces (pyStr kv.2) ≠ [] ∧
        (∀ c ∈ stripBraces (pyStr kv.2), c ∉ braced kv.1) ∧
        stripBraces (pyStr kv.2) ≠ "foo".data) ∧
      braced "foo".data <:+:
        (braced "foo".data ++ " and ".data ++ braced "client_name".data)) ∧
    braced "foo".data <:+:
      applyAll (dataDict recClean)
        (braced "foo".data ++ " and ".data ++ braced "client_name".data) :=
  ⟨⟨by decide, by decide, by decide, by decide⟩,
    c7_unknown_kept recClean "foo".data _ (by decide) (by decide) (by decide)
      (by decide)⟩

/-- C7 counterexample: the unknown placeholder `{foo}` is NOT left verbatim
when a Record value string happens to equal `foo`: the cleanup pass of the
resolver rewrites the pre-existing `{foo}` to `foo`. -/
theorem c7_counterexample :
    braced "foo".data <:+:
      (braced "client_name".data ++ " ".data ++ braced "foo".data) ∧
    (∀ kv ∈ dataDict recFoo, kv.1 ≠ "foo".data) ∧
    ¬ braced "foo".data <:+:
      applyAll (dataDict recFoo)
        (braced "client_name".data ++ " ".data ++ braced "foo".data) := by
  decide

/-- C8 (confirmed): whenever any internal step of `extract` fails — the
outer try (prompt formatting / LLM call), JSON parsing of the cleaned
response, or Record validation — the function returns the fixed default
dictionary (empty client name, the given today's date, empty machine list,
12-month duration, empty purchase order, no address key) instead of
propagating an error. -/
theorem c8_extract_default {J : Type} (today : PyDate)
    (llmResponse : Except Str Str) (parseJson : Str → Except Str J)
    (validate : J → Except Str ContractData)
    (hfail : ¬ ∃ resp j d, llmResponse = Except.ok resp ∧
      parseJson (cleanJson resp) = Except.ok j ∧ validate j = Except.ok d) :
    extract today llmResponse parseJson validate =
      { client_name := [], effective_date := today, machine_names := [],
        subscription_duration_months := 12, purchase_order := [], address := none } := by
  cases llmResponse with
  | error e => rfl
  | ok resp =>
    cases hp : parseJson (cleanJson resp) with
    | error e => simp [extract, hp]
    | ok j =>
      cases hv : validate j with
      | error e => simp [extract, hp, hv]
      | ok d => exact absurd ⟨resp, j, d, rfl, hp, hv⟩ hfail

theorem c8_witness :
    (¬ ∃ resp j d, (Except.error "boom".data : Except Str Str) = Except.ok resp ∧
      (fun _ : Str => (Except.error ([] : Str) : Except Str Unit)) (cleanJson resp) =
        Except.ok j ∧
      (fun _ : Unit => (Except.error ([] : Str) : Except Str ContractData)) j =
        Except.ok d) ∧
    extract (⟨2024, 1, 1⟩ : PyDate) (Except.error "boom".data)
        (fun _ : Str => (Except.error ([] : Str) : Except Str Unit))
        (fun _ : Unit => (Except.error ([] : Str) : Except Str ContractData)) =
      { client_name := [], effective_date := ⟨2024, 1, 1⟩, machine_names := [],
        subscription_duration_months := 12, purchase_order := [], address := none } :=
  ⟨fun ⟨_, _, _, h, _⟩ => Except.noConfusion h,
    c8_extract_default ⟨2024, 1, 1⟩ _ _ _ (fun ⟨_, _, _, h, _⟩ => Except.noConfusion h)⟩

/-- C10 (confirmed): the resolver strips all leading and trailing brace
characters from the value's string form (the stripped string never starts
or ends with a brace), and its cleanup pass replaces brace-wrapped
occurrences of the stripped value with the bare value — including
occurrences already present in the input: below, both pre-existing
`{Acme}` occurrences are unwrapped while the placeholder itself is
replaced by the stripped value of `{{Acme}}`. -/
theorem c10_strip_and_unwrap :
    (∀ s : Str, ((stripBraces s).head?.all fun c => !isBraceChar c) = true ∧
      ((stripBraces s).getLast?.all fun c => !isBraceChar c) = true) ∧
    replace_in_text
        ("see ".data ++ braced "Acme".data ++ " and ".data ++ braced "Acme".data ++
          " plus ".data ++ braced "client_name".data)
        "client_name".data (PyValue.vstr (doubleBraced "Acme".data)) =
      "see Acme and Acme plus Acme".data := by
  refine ⟨fun s => ⟨stripBraces_head s, stripBraces_last s⟩, ?_⟩
  decide

/-- C6 (confirmed): sequence-valued fields are rendered as the elements
joined by comma+space and date fields as `DD Mon, YYYY`; in general the
resolver inserts exactly that normalized string for a clean value, and on
the spec's own examples the rendering is `A, B` and `30 Mar, 2024`. -/
theorem c6_rendering :
    (∀ (key : Str) (xs : List Str) (text : Str),
      stripBraces (joinCommaSpace xs) ≠ [] →
      (∀ c ∈ stripBraces (joinCommaSpace xs), c ∉ braced key) →
      braced key <:+: text →
      stripBraces (joinCommaSpace xs) <:+: replace_in_text text key (PyValue.vlist xs)) ∧
    (∀ (key : Str) (y m d : Nat) (text : Str),
      stripBraces (pyDateFormat y m d) ≠ [] →
      (∀ c ∈ stripBraces (pyDateFormat y m d), c ∉ braced key) →
      braced key <:+: text →
      stripBraces (pyDateFormat y m d) <:+:
        replace_in_text text key (PyValue.vdate y m d)) ∧
    replace_in_text (braced "machine_names".data) "machine_names".data
        (PyValue.vlist ["A".data, "B".data]) = "A, B".data ∧
    replace_in_text (braced "effective_date".data) "effective_date".data
        (PyValue.vdate 2024 3 30) = "30 Mar, 2024".data ∧
    pyStr (PyValue.vlist ["A".data, "B".data]) = "A, B".data ∧
    pyStr (PyValue.vdate 2024 3 30) = "30 Mar, 2024".data := by
  refine ⟨?_, ?_, by decide, by decide, by decide, by decide⟩
  · intro key xs text hvs hd hS
    exact resolver_inserts_value key (PyValue.vlist xs) text hvs hd hS
  · intro key y m d text hvs hd hS
    exact resolver_inserts_value key (PyValue.vdate y m d) text hvs hd hS

theorem c6_witness :
    ((stripBraces (joinCommaSpace ["A".data, "B".data]) ≠ []) ∧
      (∀ c ∈ stripBraces (joinCommaSpace ["A".data, "B".data]),
        c ∉ braced "machine_names".data) ∧
      braced "machine_names".data <:+: braced "machine_names".data) ∧
    stripBraces (joinCommaSpace ["A".data, "B".data]) <:+:
      replace_in_text (braced "machine_names".data) "machine_names".data
        (PyValue.vlist ["A".data, "B".data]) ∧
    stripBraces (pyDateFormat 2024 7 15) <:+:
      replace_in_text (braced "effective_date".data) "effective_date".data
        (PyValue.vdate 2024 7 15) :=
  ⟨⟨by decide, by decide, by decide⟩,
    c6_rendering.1 "machine_names".data ["A".data, "B".data] _
      (by decide) (by decide) (by decide),
    c6_rendering.2.1 "effective_date".data 2024 7 15 _
      (by decide) (by decide) (by decide)⟩
